import Mathlib

/-!
Verification of the connection-status extraction core of the `ecl2df`
repository (`ecl2df/wellconnstatus.py`).

The core is `_get_status_changes(dates, conn_values)`:

```
status_changes = []
prev_value = 0
for date, value in zip(dates, conn_values):
    if value > 0 and prev_value == 0:
        status_changes.append((date, "OPEN"))
    elif prev_value > 0 and value == 0:
        status_changes.append((date, "SHUT"))
    prev_value = value
return status_changes
```

Shallow embedding: dates are an arbitrary type `α`; values are `Int`
(the loop only uses the `> 0` and `== 0` comparisons, which `Int` models
faithfully for the rational inputs the claims range over); Python's
`zip`, which truncates to the shorter sequence, is `List.zip`, which
does the same. `getStatusChangesAux` is the loop with the running
`prev_value` explicit; `getStatusChanges` is the function itself.
-/

/-- The two status tokens the detector emits ("OPEN" / "SHUT" in the source). -/
inductive Status : Type
  | OPEN : Status
  | SHUT : Status
deriving DecidableEq, Repr

/-- The loop body of `_get_status_changes`, with the running `prev_value` made
an explicit argument and the zipped `(date, value)` pairs as input.
Mirrors the Python loop branch by branch. -/
def getStatusChangesAux (prev : Int) : List (α × Int) → List (α × Status)
  | [] => []
  | (date, value) :: rest =>
      if 0 < value ∧ prev = 0 then
        (date, Status.OPEN) :: getStatusChangesAux value rest
      else if 0 < prev ∧ value = 0 then
        (date, Status.SHUT) :: getStatusChangesAux value rest
      else
        getStatusChangesAux value rest

/-- Shallow embedding of `_get_status_changes(dates, conn_values)`:
`prev_value` starts at `0` and the two series are zipped, truncating to the
shorter exactly as Python's `zip` does. -/
def getStatusChanges (dates : List α) (conn_values : List Int) :
    List (α × Status) :=
  getStatusChangesAux 0 (dates.zip conn_values)

/-- Stateless transition rule with an arbitrary initial previous value,
used to generalise induction hypotheses for `transitionSpec`. -/
def transitionSpecFrom (prev : Int) (dates : List α) (conn_values : List Int) :
    List (α × Status) :=
  (dates.zip ((prev :: conn_values).zip conn_values)).filterMap fun x =>
    if 0 < x.2.2 ∧ x.2.1 = 0 then some (x.1, Status.OPEN)
    else if 0 < x.2.1 ∧ x.2.2 = 0 then some (x.1, Status.SHUT)
    else none

/-- Declarative (stateless) rendering of the spec's scan rule: pair every
value with its predecessor (the predecessor of index 0 being 0, via the
shifted list `0 :: conn_values`), emit OPEN where the value turned positive
from 0, SHUT where it turned 0 from positive, and nothing elsewhere, keeping
scan order and taking each date verbatim from the triggering index. -/
def transitionSpec (dates : List α) (conn_values : List Int) :
    List (α × Status) :=
  transitionSpecFrom 0 dates conn_values

/-- Abbreviation for the open/flowing test `value > 0`, as a Boolean. -/
def openB (x : Int) : Bool := decide (0 < x)

/-- Unfolding lemma: one step of the stateless rule. -/
theorem transitionSpecFrom_cons (prev : Int) (d : α) (v : Int)
    (ts : List α) (vs : List Int) :
    transitionSpecFrom prev (d :: ts) (v :: vs) =
      (if 0 < v ∧ prev = 0 then [(d, Status.OPEN)]
       else if 0 < prev ∧ v = 0 then [(d, Status.SHUT)] else []) ++
        transitionSpecFrom v ts vs := by
  simp only [transitionSpecFrom, List.zip_cons_cons, List.filterMap_cons]
  by_cases h1 : 0 < v ∧ prev = 0
  · simp [h1]
  · by_cases h2 : 0 < prev ∧ v = 0 <;> simp [h1, h2]

/-- The stateful loop agrees with the stateless rule for every initial
previous value. -/
theorem getStatusChangesAux_eq_specFrom (ts : List α) (vs : List Int) (prev : Int) :
    getStatusChangesAux prev (ts.zip vs) = transitionSpecFrom prev ts vs := by
  induction ts generalizing vs prev with
  | nil => simp [getStatusChangesAux, transitionSpecFrom]
  | cons d ts ih =>
    cases vs with
    | nil => simp [getStatusChangesAux, transitionSpecFrom]
    | cons v vs =>
      rw [transitionSpecFrom_cons, List.zip_cons_cons]
      show (if 0 < v ∧ prev = 0 then (d, Status.OPEN) :: getStatusChangesAux v (ts.zip vs)
        else if 0 < prev ∧ v = 0 then (d, Status.SHUT) :: getStatusChangesAux v (ts.zip vs)
        else getStatusChangesAux v (ts.zip vs)) = _
      by_cases h1 : 0 < v ∧ prev = 0
      · simp [h1, ih]
      · by_cases h2 : 0 < prev ∧ v = 0 <;> simp [h1, h2, ih]

/-- Every emitted event takes its date from some input pair, and the value at
the triggering pair is positive (OPEN) or exactly zero (SHUT). -/
theorem mem_getStatusChangesAux (l : List (α × Int)) (prev : Int) :
    ∀ e ∈ getStatusChangesAux prev l, ∃ p ∈ l, e.1 = p.1 ∧ (0 < p.2 ∨ p.2 = 0) := by
  induction l generalizing prev with
  | nil => simp [getStatusChangesAux]
  | cons p rest ih =>
    intro e he
    obtain ⟨d, v⟩ := p
    simp only [getStatusChangesAux] at he
    by_cases h1 : 0 < v ∧ prev = 0
    · rw [if_pos h1] at he
      rcases List.mem_cons.mp he with h | h
      · exact ⟨(d, v), List.mem_cons_self _ _, by simp [h], Or.inl h1.1⟩
      · obtain ⟨q, hq, hfst, hv⟩ := ih v e h
        exact ⟨q, List.mem_cons_of_mem _ hq, hfst, hv⟩
    · rw [if_neg h1] at he
      by_cases h2 : 0 < prev ∧ v = 0
      · rw [if_pos h2] at he
        rcases List.mem_cons.mp he with h | h
        · exact ⟨(d, v), List.mem_cons_self _ _, by simp [h], Or.inr h2.2⟩
        · obtain ⟨q, hq, hfst, hv⟩ := ih v e h
          exact ⟨q, List.mem_cons_of_mem _ hq, hfst, hv⟩
      · rw [if_neg h2] at he
        obtain ⟨q, hq, hfst, hv⟩ := ih v e he
        exact ⟨q, List.mem_cons_of_mem _ hq, hfst, hv⟩

/-- With a non-positive previous value and all values non-positive, the loop
emits nothing. -/
theorem getStatusChangesAux_eq_nil_of_nonpos (l : List (α × Int)) (prev : Int)
    (hprev : prev ≤ 0) (hl : ∀ p ∈ l, p.2 ≤ 0) :
    getStatusChangesAux prev l = [] := by
  induction l generalizing prev with
  | nil => rfl
  | cons p rest ih =>
    obtain ⟨d, v⟩ := p
    have hv : v ≤ 0 := hl (d, v) (List.mem_cons_self _ _)
    have h1 : ¬(0 < v ∧ prev = 0) := fun h => absurd h.1 (not_lt.mpr hv)
    have h2 : ¬(0 < prev ∧ v = 0) := fun h => absurd h.1 (not_lt.mpr hprev)
    simp only [getStatusChangesAux, if_neg h1, if_neg h2]
    exact ih v hv fun q hq => hl q (List.mem_cons_of_mem _ hq)

/-- With a positive previous value and all values positive, the loop emits
nothing. -/
theorem getStatusChangesAux_eq_nil_of_pos (l : List (α × Int)) (prev : Int)
    (hprev : 0 < prev) (hl : ∀ p ∈ l, 0 < p.2) :
    getStatusChangesAux prev l = [] := by
  induction l generalizing prev with
  | nil => rfl
  | cons p rest ih =>
    obtain ⟨d, v⟩ := p
    have hv : 0 < v := hl (d, v) (List.mem_cons_self _ _)
    have h1 : ¬(0 < v ∧ prev = 0) := fun h => absurd (h.2 ▸ hprev) (lt_irrefl 0)
    have h2 : ¬(0 < prev ∧ v = 0) := fun h => absurd (h.2 ▸ hv) (lt_irrefl 0)
    simp only [getStatusChangesAux, if_neg h1, if_neg h2]
    exact ih v hv fun q hq => hl q (List.mem_cons_of_mem _ hq)

/-- The loop emits at most one event per input pair. -/
theorem getStatusChangesAux_length_le (l : List (α × Int)) (prev : Int) :
    (getStatusChangesAux prev l).length ≤ l.length := by
  induction l generalizing prev with
  | nil => simp [getStatusChangesAux]
  | cons p rest ih =>
    obtain ⟨d, v⟩ := p
    simp only [getStatusChangesAux]
    by_cases h1 : 0 < v ∧ prev = 0
    · simpa [h1] using Nat.succ_le_succ (ih v)
    · by_cases h2 : 0 < prev ∧ v = 0
      · simpa [h1, h2] using Nat.succ_le_succ (ih v)
      · simp only [if_neg h1, if_neg h2, List.length_cons]
        exact le_trans (ih v) (Nat.le_succ _)

/-- The emitted dates form a subsequence of the input dates. -/
theorem getStatusChangesAux_map_fst_sublist (l : List (α × Int)) (prev : Int) :
    ((getStatusChangesAux prev l).map Prod.fst).Sublist (l.map Prod.fst) := by
  induction l generalizing prev with
  | nil => simp [getStatusChangesAux]
  | cons p rest ih =>
    obtain ⟨d, v⟩ := p
    simp only [getStatusChangesAux]
    by_cases h1 : 0 < v ∧ prev = 0
    · simpa [h1] using (ih v).cons₂ d
    · by_cases h2 : 0 < prev ∧ v = 0
      · simpa [h1, h2] using (ih v).cons₂ d
      · simp only [if_neg h1, if_neg h2, List.map_cons]
        exact (ih v).cons d

/-- Alternation invariant, generalised: over non-negative values, the emitted
statuses form a chain of pairwise-distinct neighbours whose virtual
predecessor is SHUT when `prev = 0` and OPEN when `prev > 0`. -/
theorem getStatusChangesAux_chain (l : List (α × Int)) (prev : Int)
    (hprev : 0 ≤ prev) (hl : ∀ p ∈ l, 0 ≤ p.2) :
    List.Chain (fun a b => a ≠ b) (if prev = 0 then Status.SHUT else Status.OPEN)
      ((getStatusChangesAux prev l).map Prod.snd) := by
  induction l generalizing prev with
  | nil => simp [getStatusChangesAux, List.Chain.nil]
  | cons p rest ih =>
    obtain ⟨d, v⟩ := p
    have hv : 0 ≤ v := hl (d, v) (List.mem_cons_self _ _)
    have hrest : ∀ q ∈ rest, 0 ≤ q.2 := fun q hq => hl q (List.mem_cons_of_mem _ hq)
    simp only [getStatusChangesAux]
    by_cases h1 : 0 < v ∧ prev = 0
    · have htail := ih v hv hrest
      rw [if_neg (ne_of_gt h1.1)] at htail
      rw [if_pos h1, if_pos h1.2, List.map_cons]
      exact List.Chain.cons (show Status.SHUT ≠ Status.OPEN by simp) htail
    · by_cases h2 : 0 < prev ∧ v = 0
      · have htail := ih v hv hrest
        rw [if_pos h2.2] at htail
        rw [if_neg h1, if_pos h2, if_neg (ne_of_gt h2.1), List.map_cons]
        exact List.Chain.cons (show Status.OPEN ≠ Status.SHUT by simp) htail
      · have heq : (if prev = 0 then Status.SHUT else Status.OPEN)
            = (if v = 0 then Status.SHUT else Status.OPEN) := by
          by_cases hp0 : prev = 0
          · have hv0 : v = 0 := by
              rcases lt_or_eq_of_le hv with h | h
              · exact absurd ⟨h, hp0⟩ h1
              · exact h.symm
            simp [hp0, hv0]
          · have hppos : 0 < prev := lt_of_le_of_ne hprev (Ne.symm hp0)
            have hv0 : v ≠ 0 := fun hc => h2 ⟨hppos, hc⟩
            simp [hp0, hv0]
        rw [if_neg h1, if_neg h2, heq]
        exact ih v hv hrest

/-- `getLast?`-with-default steps past a cons. -/
theorem getLastD_cons (m : List Int) : ∀ a x : Int,
    (a :: m).getLast?.getD x = m.getLast?.getD a := by
  induction m with
  | nil => simp
  | cons b m ih =>
    intro a x
    rw [List.getLast?_cons_cons, ih b x, ih b a]

/-- Parity invariant: over non-negative values the number of emitted events is
odd exactly when the openness of the last value differs from the openness of
the initial previous value. -/
theorem getStatusChangesAux_parity (l : List (α × Int)) (prev : Int)
    (hprev : 0 ≤ prev) (hl : ∀ p ∈ l, 0 ≤ p.2) :
    (getStatusChangesAux prev l).length % 2 =
      (Bool.xor (openB ((l.map Prod.snd).getLast?.getD prev)) (openB prev)).toNat := by
  induction l generalizing prev with
  | nil => simp [getStatusChangesAux, Bool.xor_self]
  | cons p rest ih =>
    obtain ⟨d, v⟩ := p
    have hv : 0 ≤ v := hl (d, v) (List.mem_cons_self _ _)
    have hrest : ∀ q ∈ rest, 0 ≤ q.2 := fun q hq => hl q (List.mem_cons_of_mem _ hq)
    have hlast : (((d, v) :: rest).map Prod.snd).getLast?.getD prev
        = (rest.map Prod.snd).getLast?.getD v := by
      simp only [List.map_cons]
      exact getLastD_cons (rest.map Prod.snd) v prev
    rw [hlast]
    have htail := ih v hv hrest
    simp only [getStatusChangesAux]
    by_cases h1 : 0 < v ∧ prev = 0
    · have hbv : openB v = true := by simp [openB, h1.1]
      have hbp : openB prev = false := by simp [openB, h1.2]
      rw [if_pos h1]
      simp only [List.length_cons, hbp, Bool.xor_false]
      rw [Nat.add_mod, htail, hbv]
      cases hb : openB ((rest.map Prod.snd).getLast?.getD v) <;> simp [hb]
    · by_cases h2 : 0 < prev ∧ v = 0
      · have hbv : openB v = false := by simp [openB, h2.2]
        have hbp : openB prev = true := by simp [openB, h2.1]
        rw [if_neg h1, if_pos h2]
        simp only [List.length_cons, hbp]
        rw [Nat.add_mod, htail, hbv]
        cases hb : openB ((rest.map Prod.snd).getLast?.getD v) <;> simp [hb]
      · have hbeq : openB v = openB prev := by
          by_cases hp0 : prev = 0
          · have hv0 : v = 0 := by
              rcases lt_or_eq_of_le hv with h | h
              · exact absurd ⟨h, hp0⟩ h1
              · exact h.symm
            simp [openB, hp0, hv0]
          · have hppos : 0 < prev := lt_of_le_of_ne hprev (Ne.symm hp0)
            have hvpos : 0 < v := by
              rcases lt_or_eq_of_le hv with h | h
              · exact h
              · exact absurd ⟨hppos, h.symm⟩ h2
            simp [openB, hppos, hvpos]
        rw [if_neg h1, if_neg h2, htail, hbeq]

/-- `zip` only consumes the first `min` elements of either list. -/
theorem zip_eq_zip_take (ts : List α) (vs : List Int) :
    ts.zip vs = (ts.take vs.length).zip (vs.take ts.length) := by
  induction ts generalizing vs with
  | nil => simp
  | cons d ts ih =>
    cases vs with
    | nil => simp
    | cons v vs =>
      simp only [List.length_cons, List.take_succ_cons, List.zip_cons_cons]
      rw [ih vs]

/-- `zip` restricted to the common prefix of length `min`. -/
theorem zip_eq_zip_take_min (ts : List α) (vs : List Int) :
    ts.zip vs = (ts.take (min ts.length vs.length)).zip
      (vs.take (min ts.length vs.length)) := by
  induction ts generalizing vs with
  | nil => simp
  | cons d ts ih =>
    cases vs with
    | nil => simp
    | cons v vs =>
      simp only [List.length_cons, Nat.succ_min_succ, List.take_succ_cons,
        List.zip_cons_cons]
      rw [ih vs]

/-- C1: for equal-length series the detector scans indices in order with
`previous_value` initialised to 0, emits `(timestamps[t], OPEN)` exactly when
`values[t] > 0` and the previous value is 0, emits `(timestamps[t], SHUT)`
exactly when the previous value is positive and `values[t] = 0`, emits
nothing otherwise, and returns exactly the emitted events in scan order:
the stateful loop equals the stateless per-index transition rule. -/
theorem claim1_scan_matches_spec (ts : List α) (vs : List Int)
    (h : ts.length = vs.length) :
    getStatusChanges ts vs = transitionSpec ts vs :=
  getStatusChangesAux_eq_specFrom ts vs 0

/-- C1 witness: the equivalence instantiated on a concrete series. -/
theorem claim1_witness :
    ([10, 20, 30] : List Nat).length = ([1, 0, 2] : List Int).length ∧
      getStatusChanges [10, 20, 30] [(1 : Int), 0, 2] =
        transitionSpec [10, 20, 30] [(1 : Int), 0, 2] :=
  ⟨by decide, claim1_scan_matches_spec [10, 20, 30] [(1 : Int), 0, 2] (by decide)⟩

/-- C2 counterexample: on `values = [5, -1]` the detector emits only
`(t0, OPEN)`, while normalising the negative value to 0 gives `[5, 0]` and
events `[(t0, OPEN), (t1, SHUT)]`; the code compares `value == 0` literally,
so a positive-to-negative transition emits no SHUT and values `≤ 0` are not
equivalent to 0. -/
theorem claim2_counterexample :
    getStatusChanges [(0 : Nat), 1] [(5 : Int), -1] ≠
      getStatusChanges [(0 : Nat), 1]
        (([(5 : Int), -1]).map fun v => if v ≤ 0 then 0 else v) := by
  decide

/-- C2 amended: a value that is strictly negative triggers no event at its
index (an event requires the value there to be positive or exactly zero). -/
theorem claim2_no_event_at_negative (vs : List Int) (t : Nat)
    (ht : t < vs.length) (hneg : vs.getD t 0 < 0) :
    (getStatusChanges (List.range vs.length) vs).filter
      (fun e => e.1 == t) = [] := by
  rw [List.filter_eq_nil_iff]
  intro e he
  simp only [beq_iff_eq, decide_eq_true_eq]
  intro het
  obtain ⟨p, hp, hfst, hval⟩ :=
    mem_getStatusChangesAux ((List.range vs.length).zip vs) 0 e he
  obtain ⟨i, hi, hpi⟩ := List.mem_iff_getElem.mp hp
  have hilen : i < vs.length := by
    have := hi
    rw [List.length_zip, List.length_range] at this
    omega
  have hirange : i < (List.range vs.length).length := by
    rw [List.length_range]; exact hilen
  rw [List.getElem_zip] at hpi
  have hp1 : p.1 = i := by rw [← hpi]; simp
  have hp2 : p.2 = vs.getD i 0 := by
    rw [← hpi]
    exact (List.getD_eq_getElem vs 0 hilen).symm
  have hit : i = t := by rw [← hp1, ← hfst, het]
  rw [hit] at hp2
  rcases hval with hpos | hzero
  · rw [hp2] at hpos
    exact absurd hneg (not_lt.mpr (le_of_lt hpos))
  · rw [hp2] at hzero
    rw [hzero] at hneg
    exact absurd hneg (lt_irrefl 0)

/-- C2 witness: the amended statement instantiated at the negative value of
`[5, -1]`. -/
theorem claim2_witness :
    (1 < ([(5 : Int), -1]).length ∧ ([(5 : Int), -1]).getD 1 0 < 0) ∧
      (getStatusChanges (List.range ([(5 : Int), -1]).length) [(5 : Int), -1]).filter
        (fun e => e.1 == 1) = [] :=
  ⟨⟨by decide, by decide⟩,
    claim2_no_event_at_negative [(5 : Int), -1] 1 (by decide) (by decide)⟩

/-- C3: over non-negative values, if the detector emits at least one event the
emitted statuses strictly alternate and the first emitted status is OPEN. -/
theorem claim3_alternation (ts : List α) (vs : List Int)
    (h : ts.length = vs.length) (hnn : ∀ v ∈ vs, 0 ≤ v)
    (hne : getStatusChanges ts vs ≠ []) :
    ((getStatusChanges ts vs).map Prod.snd).head? = some Status.OPEN ∧
      List.Chain' (fun a b => a ≠ b) ((getStatusChanges ts vs).map Prod.snd) := by
  have hzip : ∀ p ∈ ts.zip vs, 0 ≤ p.2 := fun p hp => hnn p.2 (List.of_mem_zip hp).2
  have hchain := getStatusChangesAux_chain (ts.zip vs) 0 (le_refl 0) hzip
  rw [if_pos rfl] at hchain
  cases hev : getStatusChanges ts vs with
  | nil => exact absurd hev hne
  | cons e es =>
    have hchain2 : List.Chain (fun a b => a ≠ b) Status.SHUT
        ((e :: es).map Prod.snd) := by
      rw [← hev]; exact hchain
    rw [List.map_cons] at hchain2
    obtain ⟨hne1, hch⟩ := List.chain_cons.mp hchain2
    have hopen : e.2 = Status.OPEN := by
      cases he2 : e.2 with
      | OPEN => rfl
      | SHUT => rw [he2] at hne1; exact absurd rfl hne1
    rw [List.map_cons, hopen]
    exact ⟨rfl, hopen ▸ hch⟩

/-- C3 witness: alternation on the concrete series `[0,0,5,5,0,3,0]`. -/
theorem claim3_witness :
    (([0, 1, 2, 3, 4, 5, 6] : List Nat).length =
        ([(0 : Int), 0, 5, 5, 0, 3, 0]).length ∧
      (∀ v ∈ [(0 : Int), 0, 5, 5, 0, 3, 0], 0 ≤ v) ∧
      getStatusChanges [0, 1, 2, 3, 4, 5, 6] [(0 : Int), 0, 5, 5, 0, 3, 0] ≠ []) ∧
    ((getStatusChanges [0, 1, 2, 3, 4, 5, 6]
        [(0 : Int), 0, 5, 5, 0, 3, 0]).map Prod.snd).head? = some Status.OPEN ∧
      List.Chain' (fun a b => a ≠ b)
        ((getStatusChanges [0, 1, 2, 3, 4, 5, 6]
          [(0 : Int), 0, 5, 5, 0, 3, 0]).map Prod.snd) :=
  ⟨⟨by decide, by decide, by decide⟩,
    claim3_alternation [0, 1, 2, 3, 4, 5, 6] [(0 : Int), 0, 5, 5, 0, 3, 0]
      (by decide) (by decide) (by decide)⟩

/-- C4 counterexample: on mismatched lengths (3 timestamps, 1 value) the
detector returns normally with exactly the result of the truncated input —
the violation is silently swallowed by truncating, not surfaced. -/
theorem claim4_counterexample :
    getStatusChanges [(0 : Nat), 1, 2] [(5 : Int)] =
        getStatusChanges [(0 : Nat)] [(5 : Int)] ∧
      getStatusChanges [(0 : Nat), 1, 2] [(5 : Int)] = [((0 : Nat), Status.OPEN)] := by
  decide

/-- C4 amended: mismatched lengths are not rejected; the detector silently
processes the zip-truncated common prefix of the two sequences. -/
theorem claim4_silent_truncation (ts : List α) (vs : List Int) :
    getStatusChanges ts vs =
      getStatusChanges (ts.take vs.length) (vs.take ts.length) := by
  unfold getStatusChanges
  rw [← zip_eq_zip_take]

/-- C5: a series whose values are all non-positive (including the all-zero and
the empty series) produces zero events. -/
theorem claim5_all_nonpositive (ts : List α) (vs : List Int)
    (h : ts.length = vs.length) (hnp : ∀ v ∈ vs, v ≤ 0) :
    getStatusChanges ts vs = [] :=
  getStatusChangesAux_eq_nil_of_nonpos _ 0 (le_refl 0)
    fun p hp => hnp p.2 (List.of_mem_zip hp).2

/-- C5 witness: the all-non-positive series `[0, -1, 0]` produces no event. -/
theorem claim5_witness :
    (([0, 1, 2] : List Nat).length = ([(0 : Int), -1, 0]).length ∧
      ∀ v ∈ [(0 : Int), -1, 0], v ≤ 0) ∧
      getStatusChanges [(0 : Nat), 1, 2] [(0 : Int), -1, 0] = [] :=
  ⟨⟨by decide, by decide⟩,
    claim5_all_nonpositive [0, 1, 2] [(0 : Int), -1, 0] (by decide) (by decide)⟩

/-- C6: a non-empty series whose values are all positive produces exactly one
event, OPEN at the first timestamp, and no SHUT. -/
theorem claim6_always_flowing (d : α) (ts : List α) (vs : List Int)
    (h : (d :: ts).length = vs.length) (hpos : ∀ v ∈ vs, 0 < v) :
    getStatusChanges (d :: ts) vs = [(d, Status.OPEN)] := by
  cases vs with
  | nil => simp at h
  | cons v vs =>
    have hv : 0 < v := hpos v (List.mem_cons_self _ _)
    have hnil := getStatusChangesAux_eq_nil_of_pos (ts.zip vs) v hv
      fun p hp => hpos p.2 (List.mem_cons_of_mem _ (List.of_mem_zip hp).2)
    unfold getStatusChanges
    rw [List.zip_cons_cons]
    show (if 0 < v ∧ (0 : Int) = 0 then
        (d, Status.OPEN) :: getStatusChangesAux v (ts.zip vs)
      else if 0 < (0 : Int) ∧ v = 0 then
        (d, Status.SHUT) :: getStatusChangesAux v (ts.zip vs)
      else getStatusChangesAux v (ts.zip vs)) = [(d, Status.OPEN)]
    rw [if_pos (And.intro hv rfl), hnil]

/-- C6 witness: the always-positive series `[7, 7, 7]`. -/
theorem claim6_witness :
    (([0, 1, 2] : List Nat).length = ([(7 : Int), 7, 7]).length ∧
      ∀ v ∈ [(7 : Int), 7, 7], 0 < v) ∧
      getStatusChanges [(0 : Nat), 1, 2] [(7 : Int), 7, 7] =
        [((0 : Nat), Status.OPEN)] :=
  ⟨⟨by decide, by decide⟩,
    claim6_always_flowing 0 [1, 2] [(7 : Int), 7, 7] (by decide) (by decide)⟩

/-- C7: over non-negative values the number of emitted events is at most the
number of observations, and it is odd exactly when the series ends open
(its last value is positive). -/
theorem claim7_count_bound_parity (ts : List α) (vs : List Int)
    (h : ts.length = vs.length) (hnn : ∀ v ∈ vs, 0 ≤ v) :
    (getStatusChanges ts vs).length ≤ vs.length ∧
      ((getStatusChanges ts vs).length % 2 = 1 ↔
        ∃ v, vs.getLast? = some v ∧ 0 < v) := by
  constructor
  · have hle := getStatusChangesAux_length_le (ts.zip vs) 0
    rw [List.length_zip] at hle
    exact le_trans hle (min_le_right _ _)
  · have hzip : ∀ p ∈ ts.zip vs, 0 ≤ p.2 := fun p hp => hnn p.2 (List.of_mem_zip hp).2
    have hpar := getStatusChangesAux_parity (ts.zip vs) 0 (le_refl 0) hzip
    have hmap : (ts.zip vs).map Prod.snd = vs := List.map_snd_zip ts vs (le_of_eq h.symm)
    rw [hmap] at hpar
    have hb0 : openB 0 = false := rfl
    rw [hb0, Bool.xor_false] at hpar
    unfold getStatusChanges
    rw [hpar]
    cases hl : vs.getLast? with
    | none => simp [openB]
    | some v =>
      simp only [Option.getD_some]
      by_cases hv : 0 < v
      · simp [openB, hv]
      · simp [openB, hv]

/-- C7 witness: bound and parity on the concrete series `[0,0,5,5,0,3,0]`. -/
theorem claim7_witness :
    (([0, 1, 2, 3, 4, 5, 6] : List Nat).length =
        ([(0 : Int), 0, 5, 5, 0, 3, 0]).length ∧
      ∀ v ∈ [(0 : Int), 0, 5, 5, 0, 3, 0], 0 ≤ v) ∧
      ((getStatusChanges [0, 1, 2, 3, 4, 5, 6]
          [(0 : Int), 0, 5, 5, 0, 3, 0]).length ≤
        ([(0 : Int), 0, 5, 5, 0, 3, 0]).length ∧
      ((getStatusChanges [0, 1, 2, 3, 4, 5, 6]
          [(0 : Int), 0, 5, 5, 0, 3, 0]).length % 2 = 1 ↔
        ∃ v, ([(0 : Int), 0, 5, 5, 0, 3, 0]).getLast? = some v ∧ 0 < v)) :=
  ⟨⟨by decide, by decide⟩,
    claim7_count_bound_parity [0, 1, 2, 3, 4, 5, 6] [(0 : Int), 0, 5, 5, 0, 3, 0]
      (by decide) (by decide)⟩

/-- C8: scenario 1 — on `values = [0,0,5,5,0,3,0]` with timestamps `t0..t6`
the detector returns exactly
`[(t2, OPEN), (t4, SHUT), (t5, OPEN), (t6, SHUT)]`. -/
theorem claim8_scenario1 (t0 t1 t2 t3 t4 t5 t6 : α) :
    getStatusChanges [t0, t1, t2, t3, t4, t5, t6] [(0 : Int), 0, 5, 5, 0, 3, 0] =
      [(t2, Status.OPEN), (t4, Status.SHUT), (t5, Status.OPEN), (t6, Status.SHUT)] := by
  simp [getStatusChanges, getStatusChangesAux]

/-- C9: the emitted dates are a subsequence of the input timestamps, taken
verbatim from the triggering indices; hence strictly increasing timestamps
give strictly increasing event dates. -/
theorem claim9_dates_chronological [Preorder α] (ts : List α) (vs : List Int)
    (h : ts.length = vs.length) (hmono : ts.Pairwise (fun a b => a < b)) :
    ((getStatusChanges ts vs).map Prod.fst).Sublist ts ∧
      ((getStatusChanges ts vs).map Prod.fst).Pairwise (fun a b => a < b) := by
  have hsub : ((getStatusChanges ts vs).map Prod.fst).Sublist ts := by
    have h1 := getStatusChangesAux_map_fst_sublist (ts.zip vs) 0
    rwa [List.map_fst_zip ts vs (le_of_eq h)] at h1
  exact ⟨hsub, hmono.sublist hsub⟩

/-- C9 witness: chronology on the concrete series `[0,0,5,5,0,3,0]`. -/
theorem claim9_witness :
    (([0, 1, 2, 3, 4, 5, 6] : List Nat).length =
        ([(0 : Int), 0, 5, 5, 0, 3, 0]).length ∧
      ([0, 1, 2, 3, 4, 5, 6] : List Nat).Pairwise (fun a b => a < b)) ∧
      ((getStatusChanges [0, 1, 2, 3, 4, 5, 6]
          [(0 : Int), 0, 5, 5, 0, 3, 0]).map Prod.fst).Sublist
        [0, 1, 2, 3, 4, 5, 6] ∧
      ((getStatusChanges [0, 1, 2, 3, 4, 5, 6]
          [(0 : Int), 0, 5, 5, 0, 3, 0]).map Prod.fst).Pairwise (fun a b => a < b) :=
  ⟨⟨by decide, by decide⟩,
    claim9_dates_chronological [0, 1, 2, 3, 4, 5, 6] [(0 : Int), 0, 5, 5, 0, 3, 0]
      (by decide) (by decide)⟩

/-- C10: the detector is total on mismatched inputs and processes exactly the
first `min` index-aligned pairs: with indices as dates its output equals the
output on the `min`-truncated input, and no emitted event mentions an index
at or beyond `min`. -/
theorem claim10_total_min_truncation (n : Nat) (vs : List Int) :
    getStatusChanges (List.range n) vs =
        getStatusChanges (List.range (min n vs.length))
          (vs.take (min n vs.length)) ∧
      (getStatusChanges (List.range n) vs).filter
        (fun e => decide (min n vs.length ≤ e.1)) = [] := by
  constructor
  · unfold getStatusChanges
    rw [zip_eq_zip_take_min, List.length_range, List.take_range]
    rw [show min (min n vs.length) n = min n vs.length by omega]
  · rw [List.filter_eq_nil_iff]
    intro e he
    simp only [decide_eq_true_eq, not_le]
    obtain ⟨p, hp, hfst, hval⟩ :=
      mem_getStatusChangesAux ((List.range n).zip vs) 0 e he
    obtain ⟨i, hi, hpi⟩ := List.mem_iff_getElem.mp hp
    have himin : i < min n vs.length := by
      have := hi
      rw [List.length_zip, List.length_range] at this
      omega
    rw [List.getElem_zip] at hpi
    have hp1 : p.1 = i := by rw [← hpi]; simp
    rw [hfst, hp1]
    exact himin
